import Mathlib

/-!
Verification of the evaluation core of `study-pg-hybrid-search`:
the ranking-quality metrics engine (`src/evaluations/calc_metrics.py`),
the reciprocal-rank-fusion engine (`src/evaluations/run_eval.py`, `fuse_rrf`)
and the evaluation aggregator (`summarize_rankings`).

Numeric modelling: the Python code computes with IEEE floats; here the same
arithmetic is carried out exactly, in `ℚ` where the code only adds and divides
rationals (recall, MRR, RRF scores) and in `ℝ` where `math.log2` appears
(DCG/nDCG).  Python list/dict semantics (truncation `[:k]`, membership `in`,
dict construction with later keys overwriting earlier ones, insertion order)
are modelled explicitly below.
-/

namespace CalcMetrics

/-- The hit counter of `recall_at_k` in `src/evaluations/calc_metrics.py`:
`sum(1 for doc_id in results[:k] if doc_id in relevant)` — every occurrence in
the prefix is counted independently, no deduplication. -/
def hitCount (results relevant : List Int) (k : Nat) : Nat :=
  ((results.take k).filter (fun d => decide (d ∈ relevant))).length

/-- `recall_at_k` from `src/evaluations/calc_metrics.py` (lines 94–98). -/
def recall_at_k (results relevant : List Int) (k : Nat) : ℚ :=
  if relevant = [] then 0
  else (hitCount results relevant k : ℚ) / (relevant.length : ℚ)

/-- The scanning loop of `mrr`: `idx` is the 1-based position of the head of
the remaining list; returns `1/idx` at the first hit, `0` if none. -/
def mrrGo (relevant : List Int) : List Int → Nat → ℚ
  | [], _ => 0
  | d :: rest, idx => if d ∈ relevant then 1 / (idx : ℚ) else mrrGo relevant rest (idx + 1)

/-- `mrr` from `src/evaluations/calc_metrics.py` (lines 101–106).
Membership in `set(relevant)` coincides with list membership. -/
def mrr (results relevant : List Int) : ℚ := mrrGo relevant results 1

/-- The gain of a relevant hit at 1-based position `idx`:
`1.0 / math.log2(idx + 1)`. -/
noncomputable def discount (idx : Nat) : ℝ := 1 / Real.logb 2 (idx + 1)

/-- The accumulation loop of `dcg_at_k`: position `idx` is 1-based. -/
noncomputable def dcgGo (relevant : List Int) : List Int → Nat → ℝ
  | [], _ => 0
  | d :: rest, idx =>
      (if d ∈ relevant then discount idx else 0) + dcgGo relevant rest (idx + 1)

/-- `dcg_at_k` from `src/evaluations/calc_metrics.py` (lines 109–116). -/
noncomputable def dcg_at_k (results relevant : List Int) (k : Nat) : ℝ :=
  dcgGo relevant (results.take k) 1

/-- `ndcg_at_k` from `src/evaluations/calc_metrics.py` (lines 119–126):
`ideal_order = relevant[:k]` and `ideal = dcg_at_k(ideal_order, ideal_order, k)`
are inlined. -/
noncomputable def ndcg_at_k (results relevant : List Int) (k : Nat) : ℝ :=
  if relevant = [] then 0
  else if dcg_at_k (relevant.take k) (relevant.take k) k = 0 then 0
  else dcg_at_k results relevant k / dcg_at_k (relevant.take k) (relevant.take k) k

/-! Spec-side formulations (from the words of §4.1 of the specification),
used to state the refinement claims about `recall_at_k` and `ndcg_at_k`. -/

/-- Modelled from the spec: "fraction of `relevant` present in the first `k`
elements of `results`", the hits counted positionally over the first
`min(k, |results|)` positions, each occurrence independently. -/
def recall_spec (results relevant : List Int) (k : Nat) : ℚ :=
  if relevant = [] then 0
  else (∑ i in Finset.range (min k results.length),
         if results.getD i 0 ∈ relevant then (1 : ℚ) else 0) / (relevant.length : ℚ)

/-! ### Basic bridging lemmas -/

lemma filter_length_cast_eq_sum (l rel : List Int) :
    (((l.filter (fun d => decide (d ∈ rel))).length : ℚ)) =
      ∑ i in Finset.range l.length, if l.getD i 0 ∈ rel then (1 : ℚ) else 0 := by
  induction l with
  | nil => simp
  | cons d t ih =>
    rw [List.length_cons, Finset.sum_range_succ']
    simp only [List.getD_cons_succ, List.getD_cons_zero]
    rw [← ih, List.filter_cons]
    by_cases h : d ∈ rel <;> simp [h]

lemma getD_take (l : List Int) (k i : Nat) (h : i < k) :
    (l.take k).getD i 0 = l.getD i 0 := by
  rw [List.getD_eq_getElem?_getD, List.getD_eq_getElem?_getD, List.getElem?_take]
  simp [h]

lemma hitCount_cast_eq_sum (results rel : List Int) (k : Nat) :
    ((hitCount results rel k : ℚ)) =
      ∑ i in Finset.range (min k results.length),
        if results.getD i 0 ∈ rel then (1 : ℚ) else 0 := by
  rw [hitCount, filter_length_cast_eq_sum, List.length_take]
  refine Finset.sum_congr rfl (fun i hi => ?_)
  rw [Finset.mem_range] at hi
  rw [getD_take _ _ _ (lt_of_lt_of_le hi (Nat.min_le_left _ _))]

/-- Claim C5: `recall_at_k(results, relevant, k)` equals the fraction of
`relevant` present in the first `k` elements of `results` — the number of hits
among the first `min(k, |results|)` positions divided by `|relevant|` — and
returns `0` whenever `relevant` is empty. -/
theorem recall_at_k_correct (results relevant : List Int) (k : Nat) :
    recall_at_k results relevant k = recall_spec results relevant k ∧
    (relevant = [] → recall_at_k results relevant k = 0) := by
  constructor
  · rw [recall_at_k, recall_spec, hitCount_cast_eq_sum]
  · intro h; simp [recall_at_k, h]

/-- Witness for C5 at concrete inputs. -/
theorem recall_at_k_correct_witness : recall_at_k [5, 3, 9] [] 3 = 0 :=
  (recall_at_k_correct [5, 3, 9] [] 3).2 rfl

/-! ### C7: monotonicity of recall in `k` -/

lemma hitCount_mono (results relevant : List Int) {k₁ k₂ : Nat} (h : k₁ ≤ k₂) :
    hitCount results relevant k₁ ≤ hitCount results relevant k₂ := by
  have hsub : List.Sublist (results.take k₁) (results.take k₂) := by
    have : results.take k₁ = (results.take k₂).take k₁ := by
      rw [List.take_take, Nat.min_eq_left h]
    rw [this]
    exact List.take_sublist _ _
  exact (hsub.filter _).length_le

/-- Claim C7: for a fixed `results`/`relevant` pair, `recall_at_k` is
monotone non-decreasing in `k`. -/
theorem recall_at_k_mono (results relevant : List Int) (k₁ k₂ : Nat)
    (hk₁ : 1 ≤ k₁) (h : k₁ ≤ k₂) :
    recall_at_k results relevant k₁ ≤ recall_at_k results relevant k₂ := by
  by_cases hrel : relevant = []
  · simp [recall_at_k, hrel]
  · rw [recall_at_k, recall_at_k, if_neg hrel, if_neg hrel]
    have hlen : (0 : ℚ) < (relevant.length : ℚ) := by
      have : relevant.length ≠ 0 := by simpa [List.length_eq_zero] using hrel
      exact_mod_cast Nat.pos_of_ne_zero this
    have hnum : ((hitCount results relevant k₁ : ℚ)) ≤ (hitCount results relevant k₂ : ℚ) := by
      exact_mod_cast hitCount_mono results relevant h
    exact div_le_div_of_nonneg_right hnum hlen.le

/-- Witness for C7 at concrete inputs. -/
theorem recall_at_k_mono_witness :
    recall_at_k [5, 3, 9, 1, 7] [1, 3] 1 ≤ recall_at_k [5, 3, 9, 1, 7] [1, 3] 4 :=
  recall_at_k_mono [5, 3, 9, 1, 7] [1, 3] 1 4 (by decide) (by decide)

/-! ### C6: MRR -/

lemma mrrGo_nonneg (relevant l : List Int) (s : Nat) : 0 ≤ mrrGo relevant l s := by
  induction l generalizing s with
  | nil => simp [mrrGo]
  | cons d t ih =>
    rw [mrrGo]
    by_cases h : d ∈ relevant
    · simp only [h, if_true]
      positivity
    · simp only [h, if_false]
      exact ih _

lemma mrrGo_le (relevant l : List Int) (s : Nat) (hs : 1 ≤ s) :
    mrrGo relevant l s ≤ 1 / (s : ℚ) := by
  induction l generalizing s with
  | nil =>
    rw [mrrGo]
    positivity
  | cons d t ih =>
    rw [mrrGo]
    by_cases h : d ∈ relevant
    · simp only [h, if_true]
      exact le_refl _
    · simp only [h, if_false]
      refine (ih (s + 1) (by omega)).trans ?_
      have h0 : (0 : ℚ) < (s : ℚ) := by exact_mod_cast hs
      apply one_div_le_one_div_of_le h0
      push_cast; linarith

lemma mrrGo_eq_zero_iff (relevant l : List Int) (s : Nat) (hs : 1 ≤ s) :
    mrrGo relevant l s = 0 ↔ ∀ d ∈ l, d ∉ relevant := by
  induction l generalizing s with
  | nil => simp [mrrGo]
  | cons d t ih =>
    rw [mrrGo]
    by_cases h : d ∈ relevant
    · simp only [h, if_true]
      have h0 : (0 : ℚ) < (s : ℚ) := by exact_mod_cast hs
      constructor
      · intro habs
        have : (0 : ℚ) < 1 / (s : ℚ) := by positivity
        exact absurd habs (by linarith)
      · intro hall
        exact absurd h (hall d (by simp))
    · simp only [h, if_false]
      rw [ih (s + 1) (by omega)]
      constructor
      · intro hall e he
        rcases List.mem_cons.1 he with rfl | he'
        · exact h
        · exact hall e he'
      · intro hall e he
        exact hall e (List.mem_cons_of_mem _ he)

lemma mrrGo_first_hit (relevant l : List Int) (s i : Nat)
    (hi : i < l.length) (hhit : l.getD i 0 ∈ relevant)
    (hbefore : ∀ j < i, l.getD j 0 ∉ relevant) :
    mrrGo relevant l s = 1 / ((s + i : Nat) : ℚ) := by
  induction l generalizing s i with
  | nil => simp at hi
  | cons d t ih =>
    rw [mrrGo]
    cases i with
    | zero =>
      simp only [List.getD_cons_zero] at hhit
      simp [hhit]
    | succ i' =>
      have hd : d ∉ relevant := by
        have := hbefore 0 (Nat.succ_pos i')
        simpa using this
      simp only [hd, if_false]
      have := ih (s + 1) i' (by simpa using hi)
        (by simpa using hhit)
        (fun j hj => by
          have := hbefore (j + 1) (by omega)
          simpa using this)
      rw [this]
      congr 1
      push_cast
      ring

/-- Claim C6: `mrr(results, relevant)` is the reciprocal of the 1-based
position of the first element of `results` that belongs to `relevant`
(`0` when none is); it always lies in `[0,1]`, and equals `0` iff no
relevant document appears anywhere in `results`. -/
theorem mrr_correct (results relevant : List Int) :
    (0 ≤ mrr results relevant ∧ mrr results relevant ≤ 1) ∧
    (∀ i, i < results.length → results.getD i 0 ∈ relevant →
        (∀ j < i, results.getD j 0 ∉ relevant) →
        mrr results relevant = 1 / ((i : ℚ) + 1)) ∧
    (mrr results relevant = 0 ↔ ∀ d ∈ results, d ∉ relevant) := by
  refine ⟨⟨mrrGo_nonneg relevant results 1, ?_⟩, ?_, mrrGo_eq_zero_iff relevant results 1 le_rfl⟩
  · simpa using mrrGo_le relevant results 1 le_rfl
  · intro i hi hhit hbefore
    rw [mrr, mrrGo_first_hit relevant results 1 i hi hhit hbefore]
    congr 1
    push_cast
    ring

/-- Witness for C6 at concrete inputs: in `[5, 3, 9]` against `[1, 3]` the
first relevant element sits at 1-based position 2. -/
theorem mrr_correct_witness : mrr [5, 3, 9] [1, 3] = 1 / ((1 : ℚ) + 1) :=
  (mrr_correct [5, 3, 9] [1, 3]).2.1 1 (by decide) (by decide) (by decide)

/-! ### DCG / nDCG machinery -/

/-- `idealFrom s n`: DCG mass of `n` consecutive relevant hits occupying the
1-based positions `s, s+1, …, s+n-1`. -/
noncomputable def idealFrom : Nat → Nat → ℝ
  | _, 0 => 0
  | s, n + 1 => discount s + idealFrom (s + 1) n

lemma logb_arg_pos {s : Nat} (hs : 1 ≤ s) : (0 : ℝ) < Real.logb 2 ((s : ℝ) + 1) := by
  apply Real.logb_pos (by norm_num)
  have : (1 : ℝ) ≤ (s : ℝ) := by exact_mod_cast hs
  linarith

lemma discount_pos {s : Nat} (hs : 1 ≤ s) : 0 < discount s := by
  rw [discount]
  have := logb_arg_pos hs
  positivity

lemma discount_anti {a b : Nat} (ha : 1 ≤ a) (hab : a ≤ b) : discount b ≤ discount a := by
  rw [discount, discount]
  apply one_div_le_one_div_of_le (logb_arg_pos ha)
  apply Real.logb_le_logb_of_le (by norm_num)
  · have : (0 : ℝ) < (a : ℝ) := by exact_mod_cast ha
    linarith
  · have : (a : ℝ) ≤ (b : ℝ) := by exact_mod_cast hab
    linarith

lemma idealFrom_nonneg (s n : Nat) (hs : 1 ≤ s) : 0 ≤ idealFrom s n := by
  induction n generalizing s with
  | zero => rw [idealFrom]
  | succ n ih =>
    rw [idealFrom]
    have h1 := discount_pos hs
    have h2 := ih (s + 1) (by omega)
    linarith

lemma idealFrom_shift_le (n : Nat) : ∀ s, 1 ≤ s → idealFrom (s + 1) n ≤ idealFrom s n := by
  induction n with
  | zero => intro s _; rw [idealFrom, idealFrom]
  | succ n ih =>
    intro s hs
    rw [idealFrom, idealFrom]
    have h1 := discount_anti hs (Nat.le_succ s)
    have h2 := ih (s + 1) (by omega)
    linarith

lemma idealFrom_mono {n m : Nat} (h : n ≤ m) : ∀ s, 1 ≤ s → idealFrom s n ≤ idealFrom s m := by
  induction n generalizing m with
  | zero =>
    intro s hs
    rw [idealFrom]
    exact idealFrom_nonneg s m hs
  | succ n ih =>
    intro s hs
    cases m with
    | zero => omega
    | succ m =>
      rw [idealFrom, idealFrom]
      have := ih (Nat.succ_le_succ_iff.mp h) (s + 1) (by omega)
      linarith

lemma dcgGo_nonneg (rel l : List Int) (s : Nat) (hs : 1 ≤ s) : 0 ≤ dcgGo rel l s := by
  induction l generalizing s with
  | nil => rw [dcgGo]
  | cons d t ih =>
    rw [dcgGo]
    have h2 := ih (s + 1) (by omega)
    by_cases h : d ∈ rel
    · simp only [h, if_true]
      have := discount_pos hs
      linarith
    · simp only [h, if_false]
      linarith

/-- The DCG of any stretch of the results list is at most the ideal DCG of its
own number of hits: the best case packs all hits at the front. -/
lemma dcgGo_le_idealFrom (rel l : List Int) (s : Nat) (hs : 1 ≤ s) :
    dcgGo rel l s ≤ idealFrom s (l.filter (fun d => decide (d ∈ rel))).length := by
  induction l generalizing s with
  | nil => rw [dcgGo, List.filter_nil, List.length_nil, idealFrom]
  | cons d t ih =>
    rw [dcgGo, List.filter_cons]
    by_cases h : d ∈ rel
    · simp only [h, if_true, decide_eq_true_eq, List.length_cons]
      rw [idealFrom]
      have := ih (s + 1) (by omega)
      linarith
    · simp only [h, if_false, decide_eq_true_eq]
      have h0 : dcgGo rel t (s + 1) ≤ idealFrom s (t.filter (fun d => decide (d ∈ rel))).length :=
        (ih (s + 1) (by omega)).trans (idealFrom_shift_le _ s hs)
      linarith

lemma dcgGo_all_mem (rel l : List Int) (s : Nat) (hall : ∀ d ∈ l, d ∈ rel) :
    dcgGo rel l s = idealFrom s l.length := by
  induction l generalizing s with
  | nil => rw [dcgGo, List.length_nil, idealFrom]
  | cons d t ih =>
    rw [dcgGo, List.length_cons, idealFrom, if_pos (hall d (by simp)),
      ih (s + 1) (fun e he => hall e (List.mem_cons_of_mem _ he))]

/-- A duplicate-free stretch cannot contain more hits than `relevant` has
entries. -/
lemma hits_le_of_nodup (l rel : List Int) (h : l.Nodup) :
    (l.filter (fun d => decide (d ∈ rel))).length ≤ rel.length := by
  have hnd : (l.filter (fun d => decide (d ∈ rel))).Nodup := h.filter _
  have hsub : (l.filter (fun d => decide (d ∈ rel))) ⊆ rel := by
    intro a ha
    exact of_decide_eq_true (List.mem_filter.mp ha).2
  exact (hnd.subperm hsub).length_le

/-- The code's ideal DCG — `dcg_at_k(relevant[:k], relevant[:k], k)` — is the
full discount mass of `min k |relevant|` leading positions. -/
lemma ideal_eq_idealFrom (relevant : List Int) (k : Nat) :
    dcg_at_k (relevant.take k) (relevant.take k) k =
      idealFrom 1 (min k relevant.length) := by
  rw [dcg_at_k, List.take_take, Nat.min_self,
    dcgGo_all_mem _ _ _ (fun d hd => hd), List.length_take]

lemma ideal_pos (relevant : List Int) (k : Nat) (hrel : relevant ≠ []) (hk : 1 ≤ k) :
    0 < idealFrom 1 (min k relevant.length) := by
  have hlen : 1 ≤ relevant.length := by
    cases relevant with
    | nil => exact absurd rfl hrel
    | cons a l => simp
  obtain ⟨n, hn⟩ : ∃ n, min k relevant.length = n + 1 := by
    refine ⟨min k relevant.length - 1, ?_⟩
    omega
  rw [hn, idealFrom]
  have h1 := discount_pos (le_refl 1)
  have h2 := idealFrom_nonneg 2 n (by omega)
  linarith

/-! ### C1: range of nDCG -/

/-- Counterexample to claim C1 as stated: duplicate document ids in `results`
are each credited with gain, while the ideal DCG deduplicates nothing either —
but `relevant = [3]` caps the ideal at a single position, so
`ndcg_at_k([3,3], [3], 2) = 1 + 1/log2 3 > 1`. -/
theorem ndcg_at_k_counterexample_above_one : 1 < ndcg_at_k [3, 3] [3] 2 := by
  have h2 : Real.logb 2 2 = 1 := Real.logb_self_eq_one (by norm_num)
  have h3 : (0 : ℝ) < Real.logb 2 3 := Real.logb_pos (by norm_num) (by norm_num)
  have htake1 : ([3] : List Int).take 2 = [3] := rfl
  have htake2 : ([3, 3] : List Int).take 2 = [3, 3] := rfl
  rw [ndcg_at_k, if_neg (by simp), dcg_at_k, dcg_at_k, htake1, htake2]
  simp only [dcgGo]
  have hmem : (3 : Int) ∈ ([3] : List Int) := by simp
  simp only [hmem, if_true, discount]
  norm_num [h2]
  exact h3

/-- Claim C1, amended: the upper bound `nDCG@k ≤ 1` additionally needs the
scored prefix `results[:k]` to be duplicate-free; `0 ≤ nDCG@k` and the
"perfect prefix gives 1" part hold as stated. -/
theorem ndcg_at_k_bounds (results relevant : List Int) (k : Nat)
    (hrel : relevant ≠ []) (hk : 1 ≤ k) :
    0 ≤ ndcg_at_k results relevant k ∧
    ((results.take k).Nodup → ndcg_at_k results relevant k ≤ 1) ∧
    (results.take k = relevant.take k → ndcg_at_k results relevant k = 1) := by
  have hideal := ideal_eq_idealFrom relevant k
  have hpos := ideal_pos relevant k hrel hk
  have hne : dcg_at_k (relevant.take k) (relevant.take k) k ≠ 0 := by
    rw [hideal]; exact ne_of_gt hpos
  rw [ndcg_at_k, if_neg hrel, if_neg hne]
  refine ⟨?_, ?_, ?_⟩
  · apply div_nonneg
    · exact dcgGo_nonneg relevant (results.take k) 1 le_rfl
    · rw [hideal]; exact hpos.le
  · intro hnd
    rw [hideal, div_le_one hpos]
    refine (dcgGo_le_idealFrom relevant (results.take k) 1 le_rfl).trans ?_
    apply idealFrom_mono ?_ 1 le_rfl
    refine le_min ?_ (hits_le_of_nodup _ _ hnd)
    calc ((results.take k).filter (fun d => decide (d ∈ relevant))).length
        ≤ (results.take k).length := List.length_filter_le _ _
      _ ≤ k := by rw [List.length_take]; exact Nat.min_le_left _ _
  · intro hpre
    rw [dcg_at_k, hpre, dcgGo_all_mem relevant (relevant.take k) 1
      (fun d hd => List.take_subset k relevant hd), List.length_take, ← ideal_eq_idealFrom,
      div_self hne]

/-- Witness for the amended C1 at concrete inputs: `results = [1, 3, 9]`,
`relevant = [1, 3]`, `k = 2` — a duplicate-free perfect prefix. -/
theorem ndcg_at_k_bounds_witness :
    ([1, 3] : List Int) ≠ [] ∧ 1 ≤ 2 ∧
      (0 ≤ ndcg_at_k [1, 3, 9] [1, 3] 2 ∧
        (([1, 3, 9] : List Int).take 2).Nodup → ndcg_at_k [1, 3, 9] [1, 3] 2 ≤ 1) ∧
      ndcg_at_k [1, 3, 9] [1, 3] 2 = 1 := by
  refine ⟨by decide, by decide, ?_, ?_⟩
  · intro h
    exact (ndcg_at_k_bounds [1, 3, 9] [1, 3] 2 (by decide) (by decide)).2.1 h.2
  · exact (ndcg_at_k_bounds [1, 3, 9] [1, 3] 2 (by decide) (by decide)).2.2 (by decide)

/-! ### C4: nDCG as a quotient of positional sums -/

/-- Modelled from the spec: the DCG of `results` at cutoff `k`, summing
`1/log2(rank+1)` (rank = `i+1`, 1-based) over the relevant hits among the
first `min(k, |results|)` positions. -/
noncomputable def dcg_spec (results relevant : List Int) (k : Nat) : ℝ :=
  ∑ i in Finset.range (min k results.length),
    if results.getD i 0 ∈ relevant then 1 / Real.logb 2 ((i : ℝ) + 2) else 0

/-- Modelled from the spec: the ideal DCG obtained by scoring the first `k`
entries of `relevant`, in the order given, as a perfect ranking. -/
noncomputable def ideal_dcg_spec (relevant : List Int) (k : Nat) : ℝ :=
  ∑ i in Finset.range (min k relevant.length), 1 / Real.logb 2 ((i : ℝ) + 2)

/-- Modelled from the spec: DCG divided by ideal DCG, `0` when `relevant` is
empty or the ideal DCG is `0`. -/
noncomputable def ndcg_spec (results relevant : List Int) (k : Nat) : ℝ :=
  if relevant = [] then 0
  else if ideal_dcg_spec relevant k = 0 then 0
  else dcg_spec results relevant k / ideal_dcg_spec relevant k

lemma dcgGo_eq_sum (rel l : List Int) (s : Nat) :
    dcgGo rel l s =
      ∑ i in Finset.range l.length,
        if l.getD i 0 ∈ rel then 1 / Real.logb 2 ((s : ℝ) + (i : ℝ) + 1) else 0 := by
  induction l generalizing s with
  | nil => rw [dcgGo]; simp
  | cons d t ih =>
    rw [dcgGo, List.length_cons, Finset.sum_range_succ']
    simp only [List.getD_cons_succ, List.getD_cons_zero]
    rw [ih (s + 1)]
    have harg : ∀ i : Nat, ((s + 1 : Nat) : ℝ) + (i : ℝ) + 1 = (s : ℝ) + ((i + 1 : Nat) : ℝ) + 1 := by
      intro i; push_cast; ring
    have hsum : ∀ i ∈ Finset.range t.length,
        (if t.getD i 0 ∈ rel then 1 / Real.logb 2 (((s + 1 : Nat) : ℝ) + (i : ℝ) + 1) else 0) =
          if t.getD i 0 ∈ rel then 1 / Real.logb 2 ((s : ℝ) + ((i + 1 : Nat) : ℝ) + 1) else 0 := by
      intro i _
      rw [harg i]
    rw [Finset.sum_congr rfl hsum]
    have hhead : (if d ∈ rel then discount s else 0) =
        if d ∈ rel then 1 / Real.logb 2 ((s : ℝ) + ((0 : Nat) : ℝ) + 1) else 0 := by
      rw [discount]
      norm_num
    rw [hhead]
    ring

lemma dcg_at_k_eq_spec (results relevant : List Int) (k : Nat) :
    dcg_at_k results relevant k = dcg_spec results relevant k := by
  rw [dcg_at_k, dcgGo_eq_sum, List.length_take, dcg_spec]
  refine Finset.sum_congr rfl (fun i hi => ?_)
  rw [Finset.mem_range] at hi
  rw [getD_take _ _ _ (lt_of_lt_of_le hi (Nat.min_le_left _ _))]
  have : ((1 : Nat) : ℝ) + (i : ℝ) + 1 = (i : ℝ) + 2 := by push_cast; ring
  rw [this]

lemma ideal_eq_spec (relevant : List Int) (k : Nat) :
    dcg_at_k (relevant.take k) (relevant.take k) k = ideal_dcg_spec relevant k := by
  rw [dcg_at_k_eq_spec, dcg_spec, ideal_dcg_spec, List.length_take]
  have hmin : min k (min k relevant.length) = min k relevant.length := by omega
  rw [hmin]
  refine Finset.sum_congr rfl (fun i hi => ?_)
  rw [Finset.mem_range] at hi
  have hi' : i < (relevant.take k).length := by
    rw [List.length_take]; exact hi
  rw [if_pos]
  rw [List.getD_eq_getElem _ _ hi']
  exact List.getElem_mem hi'

/-- Claim C4: `ndcg_at_k` is the quotient of the positional DCG sum by the
ideal DCG of `relevant[:k]`, with `0` for empty `relevant` or zero ideal; at
`results = [5,3,9,1,7]`, `relevant = [1,3]`, `k = 3` it evaluates to
`(1/log2 3) / (1/log2 2 + 1/log2 3)`. -/
theorem ndcg_at_k_eq_spec (results relevant : List Int) (k : Nat) :
    ndcg_at_k results relevant k = ndcg_spec results relevant k ∧
    ndcg_at_k [5, 3, 9, 1, 7] [1, 3] 3 =
      (1 / Real.logb 2 3) / (1 / Real.logb 2 2 + 1 / Real.logb 2 3) := by
  constructor
  · rw [ndcg_at_k, ndcg_spec, ideal_eq_spec, dcg_at_k_eq_spec]
  · have h2 : Real.logb 2 2 = 1 := Real.logb_self_eq_one (by norm_num)
    have h3 : (0 : ℝ) < Real.logb 2 3 := Real.logb_pos (by norm_num) (by norm_num)
    have htake1 : ([1, 3] : List Int).take 3 = [1, 3] := rfl
    have htake2 : ([5, 3, 9, 1, 7] : List Int).take 3 = [5, 3, 9] := rfl
    rw [ndcg_at_k, if_neg (by simp), dcg_at_k, dcg_at_k, htake1, htake2]
    simp only [dcgGo]
    have m1 : (1 : Int) ∈ ([1, 3] : List Int) := by simp
    have m3 : (3 : Int) ∈ ([1, 3] : List Int) := by simp
    have m5 : (5 : Int) ∉ ([1, 3] : List Int) := by simp
    have m9 : (9 : Int) ∉ ([1, 3] : List Int) := by simp
    simp only [m1, m3, m5, m9, if_true, if_false, discount]
    norm_num [h2]
    intro habs
    exfalso
    have hpos : (0 : ℝ) < (Real.logb 2 3)⁻¹ := by positivity
    linarith

end CalcMetrics

namespace ListUtil

variable {α : Type} [DecidableEq α]

/-- First-occurrence deduplication, as performed by Python `dict`/`set`
insertion order: the first occurrence of each element is kept, later
duplicates dropped. -/
def firstDedupGo : List α → List α → List α
  | [], _ => []
  | a :: l, seen => if a ∈ seen then firstDedupGo l seen else a :: firstDedupGo l (a :: seen)

def firstDedup (l : List α) : List α := firstDedupGo l []

lemma mem_firstDedupGo (x : α) (l : List α) :
    ∀ seen, x ∈ firstDedupGo l seen ↔ (x ∈ l ∧ x ∉ seen) := by
  induction l with
  | nil => intro seen; simp [firstDedupGo]
  | cons a t ih =>
    intro seen
    rw [firstDedupGo]
    by_cases h : a ∈ seen
    · rw [if_pos h, ih]
      constructor
      · rintro ⟨hx, hns⟩
        exact ⟨List.mem_cons_of_mem _ hx, hns⟩
      · rintro ⟨hx, hns⟩
        rcases List.mem_cons.mp hx with rfl | hx'
        · exact absurd h hns
        · exact ⟨hx', hns⟩
    · rw [if_neg h]
      constructor
      · intro hx
        rcases List.mem_cons.mp hx with rfl | hx'
        · exact ⟨List.mem_cons_self _ _, h⟩
        · obtain ⟨h1, h2⟩ := (ih _).mp hx'
          refine ⟨List.mem_cons_of_mem _ h1, fun hc => h2 (List.mem_cons_of_mem _ hc)⟩
      · rintro ⟨hx, hns⟩
        rcases List.mem_cons.mp hx with rfl | hx'
        · exact List.mem_cons_self _ _
        · by_cases hxa : x = a
          · subst hxa; exact List.mem_cons_self _ _
          · refine List.mem_cons_of_mem _ ((ih _).mpr ⟨hx', ?_⟩)
            intro hc
            rcases List.mem_cons.mp hc with hc' | hc'
            · exact hxa hc'
            · exact hns hc'

lemma mem_firstDedup (x : α) (l : List α) : x ∈ firstDedup l ↔ x ∈ l := by
  rw [firstDedup, mem_firstDedupGo]
  simp

lemma nodup_firstDedupGo (l : List α) : ∀ seen, (firstDedupGo l seen).Nodup := by
  induction l with
  | nil => intro seen; rw [firstDedupGo]; exact List.nodup_nil
  | cons a t ih =>
    intro seen
    rw [firstDedupGo]
    by_cases h : a ∈ seen
    · rw [if_pos h]; exact ih seen
    · rw [if_neg h, List.nodup_cons]
      refine ⟨?_, ih _⟩
      intro hc
      exact ((mem_firstDedupGo a t _).mp hc).2 (List.mem_cons_self _ _)

lemma nodup_firstDedup (l : List α) : (firstDedup l).Nodup := nodup_firstDedupGo l []

end ListUtil

namespace RunEval

open ListUtil

/-!
The rank-fusion engine `fuse_rrf` of `src/evaluations/run_eval.py`
(lines 248–315).  A candidate entry is modelled as its `(document_id, rank)`
pair — the `rank` field is the 1-based position attached by
`run_text_search`/`run_vector_search`; the score/distance/title diagnostics
carried alongside never enter the fused ordering.  The iteration order of the
hash-based id-set union `set(text_lookup) | set(vector_lookup)` is not
specified by the source (see spec §9); we fix the first-seen order of the
concatenated id lists, which can only affect the order among tied scores.
Weights are exact rationals; `list.sort(..., reverse=True)` is modelled by a
stable descending insertion sort.
-/

/-- Dict-comprehension lookup `{item["document_id"]: {...} for item in items}`
restricted to the `rank` field: a later item with the same id overwrites an
earlier one. -/
def lookupRank : List (Int × Nat) → Int → Option Nat
  | [], _ => none
  | p :: rest, d =>
      match lookupRank rest d with
      | some r => some r
      | none => if p.1 = d then some p.2 else none

/-- The RRF score of one document (`fuse_rrf` lines 276–283):
`weight_text/(rrf_k + rank_text)` when present in the text list plus
`weight_vector/(rrf_k + rank_vector)` when present in the vector list. -/
def fusedScore (t v : List (Int × Nat)) (wt wv : ℚ) (K : Nat) (d : Int) : ℚ :=
  (match lookupRank t d with
   | some r => wt / ((K : ℚ) + (r : ℚ))
   | none => 0) +
  (match lookupRank v d with
   | some r => wv / ((K : ℚ) + (r : ℚ))
   | none => 0)

/-- The pre-sort candidate pool: one `(doc_id, score)` entry per id in the
union of the two input id sets. -/
def fusedPool (t v : List (Int × Nat)) (wt wv : ℚ) (K : Nat) : List (Int × ℚ) :=
  (firstDedup (t.map Prod.fst ++ v.map Prod.fst)).map
    (fun d => (d, fusedScore t v wt wv K d))

/-- Stable descending insertion: an element goes after every earlier element
of score ≥ its own, matching the stability of Python `list.sort`. -/
def insertDesc (x : Int × ℚ) : List (Int × ℚ) → List (Int × ℚ)
  | [] => [x]
  | y :: ys => if x.2 < y.2 then y :: insertDesc x ys else x :: y :: ys

/-- `fused.sort(key=lambda item: item[1], reverse=True)`. -/
def sortDesc : List (Int × ℚ) → List (Int × ℚ)
  | [] => []
  | x :: xs => insertDesc x (sortDesc xs)

/-- `fuse_rrf`, reduced to the data that determines the fused ranking: the
`(document_id, rrf_score)` pairs in output order.  The emitted records also
round the reported score to 8 decimals — a display concern that does not feed
back into the ordering, which is computed on unrounded scores. -/
def fuse_rrf (t v : List (Int × Nat)) (wt wv : ℚ) (K : Nat) (limit : Nat) :
    List (Int × ℚ) :=
  (sortDesc (fusedPool t v wt wv K)).take limit

/-! ### lookup and dedup lemmas -/

lemma lookupRank_eq_none_of_not_mem (l : List (Int × Nat)) (d : Int)
    (h : d ∉ l.map Prod.fst) : lookupRank l d = none := by
  induction l with
  | nil => rfl
  | cons p rest ih =>
    rw [lookupRank]
    have h1 : d ∉ rest.map Prod.fst := fun hc => h (by simp [hc])
    have h2 : p.1 ≠ d := fun hc => h (by simp [hc])
    rw [ih h1, if_neg h2]

lemma lookupRank_eq_some_of_nodup (l : List (Int × Nat)) (d : Int) (r : Nat)
    (hnd : (l.map Prod.fst).Nodup) (hmem : (d, r) ∈ l) : lookupRank l d = some r := by
  induction l with
  | nil => simp at hmem
  | cons p rest ih =>
    rw [List.map_cons, List.nodup_cons] at hnd
    rw [lookupRank]
    rcases List.mem_cons.mp hmem with rfl | hmem'
    · rw [lookupRank_eq_none_of_not_mem rest d hnd.1, if_pos rfl]
    · rw [ih hnd.2 hmem']

/-! ### sorting lemmas -/

lemma insertDesc_perm (x : Int × ℚ) (l : List (Int × ℚ)) :
    (insertDesc x l).Perm (x :: l) := by
  induction l with
  | nil => rw [insertDesc]
  | cons y ys ih =>
    rw [insertDesc]
    by_cases h : x.2 < y.2
    · rw [if_pos h]
      exact (ih.cons y).trans (List.Perm.swap x y ys)
    · rw [if_neg h]

lemma sortDesc_perm (l : List (Int × ℚ)) : (sortDesc l).Perm l := by
  induction l with
  | nil => rw [sortDesc]
  | cons x xs ih =>
    rw [sortDesc]
    exact (insertDesc_perm x (sortDesc xs)).trans (ih.cons x)

lemma insertDesc_pairwise (x : Int × ℚ) (l : List (Int × ℚ))
    (h : List.Pairwise (fun a b : Int × ℚ => b.2 ≤ a.2) l) :
    List.Pairwise (fun a b : Int × ℚ => b.2 ≤ a.2) (insertDesc x l) := by
  induction l with
  | nil => simp [insertDesc]
  | cons y ys ih =>
    rw [List.pairwise_cons] at h
    rw [insertDesc]
    by_cases hlt : x.2 < y.2
    · rw [if_pos hlt, List.pairwise_cons]
      refine ⟨?_, ih h.2⟩
      intro z hz
      rcases List.mem_cons.mp ((insertDesc_perm x ys).mem_iff.mp hz) with rfl | hz'
      · exact le_of_lt hlt
      · exact h.1 z hz'
    · rw [if_neg hlt, List.pairwise_cons]
      refine ⟨?_, List.pairwise_cons.mpr h⟩
      intro z hz
      rcases List.mem_cons.mp hz with rfl | hz'
      · exact le_of_not_lt hlt
      · exact (h.1 z hz').trans (le_of_not_lt hlt)

lemma sortDesc_pairwise (l : List (Int × ℚ)) :
    List.Pairwise (fun a b : Int × ℚ => b.2 ≤ a.2) (sortDesc l) := by
  induction l with
  | nil => rw [sortDesc]; exact List.Pairwise.nil
  | cons x xs ih => rw [sortDesc]; exact insertDesc_pairwise x _ ih

lemma mem_sortDesc_pool (t v : List (Int × Nat)) (wt wv : ℚ) (K : Nat) (d : Int) :
    d ∈ (sortDesc (fusedPool t v wt wv K)).map Prod.fst ↔
      (d ∈ t.map Prod.fst ∨ d ∈ v.map Prod.fst) := by
  rw [((sortDesc_perm (fusedPool t v wt wv K)).map Prod.fst).mem_iff, fusedPool,
    List.map_map]
  simp only [Function.comp_def]
  rw [List.map_id', mem_firstDedup, List.mem_append]

/-- Claim C3: the fused score of each document in the union of the input id
sets is `weight/(rrf_k + rank)` summed over the lists containing it, the
output is ordered by descending fused score, and on the spec's concrete
example the fused order of ids is `[3, 5, 9]`. -/
theorem fuse_rrf_correct (t v : List (Int × Nat)) (wt wv : ℚ) (K limit : Nat)
    (ht : (t.map Prod.fst).Nodup) (hv : (v.map Prod.fst).Nodup) :
    (∀ d rt rv, (d, rt) ∈ t → (d, rv) ∈ v →
        fusedScore t v wt wv K d = wt / ((K : ℚ) + (rt : ℚ)) + wv / ((K : ℚ) + (rv : ℚ))) ∧
    (∀ d rt, (d, rt) ∈ t → d ∉ v.map Prod.fst →
        fusedScore t v wt wv K d = wt / ((K : ℚ) + (rt : ℚ))) ∧
    (∀ d rv, (d, rv) ∈ v → d ∉ t.map Prod.fst →
        fusedScore t v wt wv K d = wv / ((K : ℚ) + (rv : ℚ))) ∧
    (∀ d, (d ∈ t.map Prod.fst ∨ d ∈ v.map Prod.fst) →
        (d, fusedScore t v wt wv K d) ∈ sortDesc (fusedPool t v wt wv K)) ∧
    List.Pairwise (fun a b : Int × ℚ => b.2 ≤ a.2) (fuse_rrf t v wt wv K limit) ∧
    (fuse_rrf [(5, 1), (3, 2)] [(3, 1), (9, 2)] 1 1 60 20).map Prod.fst = [3, 5, 9] := by
  refine ⟨?_, ?_, ?_, ?_, ?_,
    by norm_num [fuse_rrf, fusedPool, firstDedup, firstDedupGo, fusedScore, lookupRank,
         sortDesc, insertDesc]⟩
  · intro d rt rv hmt hmv
    rw [fusedScore, lookupRank_eq_some_of_nodup t d rt ht hmt,
      lookupRank_eq_some_of_nodup v d rv hv hmv]
  · intro d rt hmt hnv
    rw [fusedScore, lookupRank_eq_some_of_nodup t d rt ht hmt,
      lookupRank_eq_none_of_not_mem v d hnv, add_zero]
  · intro d rv hmv hnt
    rw [fusedScore, lookupRank_eq_some_of_nodup v d rv hv hmv,
      lookupRank_eq_none_of_not_mem t d hnt, zero_add]
  · intro d hd
    apply (sortDesc_perm (fusedPool t v wt wv K)).mem_iff.mpr
    rw [fusedPool]
    exact List.mem_map_of_mem _ ((mem_firstDedup d _).mpr (List.mem_append.mpr hd))
  · exact (sortDesc_pairwise _).sublist (List.take_sublist _ _)

/-- Witness for C3: the concrete inputs of the spec's scenario 3 satisfy the
duplicate-free-rank hypotheses, and the fused order of ids is `[3, 5, 9]`. -/
theorem fuse_rrf_correct_witness :
    ((([(5, 1), (3, 2)] : List (Int × Nat)).map Prod.fst).Nodup ∧
      (([(3, 1), (9, 2)] : List (Int × Nat)).map Prod.fst).Nodup) ∧
    (fuse_rrf [(5, 1), (3, 2)] [(3, 1), (9, 2)] 1 1 60 20).map Prod.fst = [3, 5, 9] :=
  ⟨⟨by decide, by decide⟩,
    (fuse_rrf_correct [(5, 1), (3, 2)] [(3, 1), (9, 2)] 1 1 60 20
      (by decide) (by decide)).2.2.2.2.2⟩

/-- Claim C8: fused output ids come from the union of the input id sets; the
pre-truncation pool's id set is exactly that union; truncation commutes with
enlarging the limit, i.e. it happens only after sorting. -/
theorem fuse_rrf_invariants (t v : List (Int × Nat)) (wt wv : ℚ) (K limit : Nat) :
    (∀ d, d ∈ (fuse_rrf t v wt wv K limit).map Prod.fst →
        d ∈ t.map Prod.fst ∨ d ∈ v.map Prod.fst) ∧
    (∀ d, d ∈ (sortDesc (fusedPool t v wt wv K)).map Prod.fst ↔
        (d ∈ t.map Prod.fst ∨ d ∈ v.map Prod.fst)) ∧
    (∀ lim₁ lim₂, lim₁ ≤ lim₂ →
        fuse_rrf t v wt wv K lim₁ = (fuse_rrf t v wt wv K lim₂).take lim₁) := by
  refine ⟨?_, mem_sortDesc_pool t v wt wv K, ?_⟩
  · intro d hd
    rw [← mem_sortDesc_pool t v wt wv K d]
    exact ((List.take_sublist _ _).map Prod.fst).mem hd
  · intro lim₁ lim₂ h
    rw [fuse_rrf, fuse_rrf, List.take_take, Nat.min_eq_left h]

/-- Witness for C8 at concrete inputs. -/
theorem fuse_rrf_invariants_witness :
    1 ≤ 2 ∧ fuse_rrf [(5, 1)] [(9, 1)] 1 1 60 1 =
      (fuse_rrf [(5, 1)] [(9, 1)] 1 1 60 2).take 1 :=
  ⟨by decide, (fuse_rrf_invariants [(5, 1)] [(9, 1)] 1 1 60 7).2.2 1 2 (by decide)⟩

end RunEval

namespace CalcMetrics

/-!
The evaluation aggregator of `src/evaluations/calc_metrics.py`:
`load_rankings` (lines 59–91) and `summarize_rankings` (lines 129–161).
Python dicts are modelled as association lists together with an
insert-or-overwrite operation (`dictUpdate`), preserving insertion order;
dict lookups `queries.get(slug)` are modelled by a function
`String → Option QueryInfo`.
-/

/-- `QueryInfo` (lines 15–19).  `relevant_ids` is the JSON object keyed by
docset, modelled as a partial map; `summarize_rankings` reads it with
`.get(docset, [])`. -/
structure QueryInfo where
  slug : String
  query : String
  relevant_ids : String → Option (List Int)

/-- `Ranking` (lines 22–30), minus the `metadata` dict, which aggregation
never reads. -/
structure Ranking where
  slug : String
  docset : String
  mode : String
  model : Option String
  rrf_weights : Option (ℚ × ℚ)
  results : List Int

/-- A Condition grouping key: docset, mode, model, fusion-weight pair.  The
code renders this as the `"|"`-joined string of `ranking_key`; the quadruple
is what the string encodes (spec §3: two records share a Condition iff all
four fields compare equal). -/
abbrev CondKey := String × String × Option String × Option (ℚ × ℚ)

/-- `ranking_key` (lines 164–170).  `if ranking.model:` is Python truthiness:
the model is omitted when `None` *or* the empty string.  The `rrf_weights`
dict always carries both weights when present (see `load_rankings`), so its
truthiness is plain presence. -/
def ranking_key (r : Ranking) : CondKey :=
  (r.docset, r.mode,
    (match r.model with
     | some m => if m = "" then none else some m
     | none => none),
    r.rrf_weights)

/-- Python dict insert-or-overwrite `d[k] = x`: overwrites in place (keeping
the key's original position) when present, appends when absent. -/
def dictUpdate {α β : Type} [DecidableEq α] (d : List (α × β)) (k : α) (x : β) :
    List (α × β) :=
  if d.any (fun p => decide (p.1 = k)) then
    d.map (fun p => if p.1 = k then (k, x) else p)
  else d ++ [(k, x)]

/-- One per-query metric dict (`summarize_rankings` lines 147–152):
`{"MRR": …}` then `recall@k` and `nDCG@k` inserted per configured `k`. -/
noncomputable def query_result (res relevant : List Int) (ks : List Nat) :
    List (String × ℝ) :=
  ks.foldl
    (fun acc k =>
      dictUpdate
        (dictUpdate acc (s!"recall@{k}") (((recall_at_k res relevant k : ℚ) : ℝ)))
        (s!"nDCG@{k}") (ndcg_at_k res relevant k))
    [("MRR", ((mrr res relevant : ℚ) : ℝ))]

/-- `values[metric].append(value)` on a `defaultdict(list)`. -/
def appendValue (vals : List (String × List ℝ)) (m : String) (x : ℝ) :
    List (String × List ℝ) :=
  if vals.any (fun p => decide (p.1 = m)) then
    vals.map (fun p => if p.1 = m then (p.1, p.2 ++ [x]) else p)
  else vals ++ [(m, [x])]

/-- The `values` accumulation over a group's contributing metric dicts
(lines 139, 156–157). -/
def collectValues (qrs : List (List (String × ℝ))) : List (String × List ℝ) :=
  qrs.foldl (fun acc qr => qr.foldl (fun a p => appendValue a p.1 p.2) acc) []

/-- `summary[key] = {metric: sum(vals) / len(vals) …}` (line 159). -/
noncomputable def condSummary (vals : List (String × List ℝ)) : List (String × ℝ) :=
  vals.map (fun p => (p.1, p.2.sum / (p.2.length : ℝ)))

/-- The metric dicts of the contributing records of a group, in record order:
records whose slug has no registered `QueryInfo` are skipped (lines 141–145),
the relevance list is `info.relevant_ids.get(ranking.docset, [])`. -/
noncomputable def contribResults (queries : String → Option QueryInfo)
    (runs : List Ranking) (ks : List Nat) : List (List (String × ℝ)) :=
  runs.filterMap (fun r =>
    (queries r.slug).map (fun info =>
      query_result r.results ((info.relevant_ids r.docset).getD []) ks))

/-- One Condition's summary entry. -/
noncomputable def condEntry (queries : String → Option QueryInfo)
    (rankings : List Ranking) (ks : List Nat) (key : CondKey) : List (String × ℝ) :=
  condSummary (collectValues (contribResults queries
    (rankings.filter (fun r => decide (ranking_key r = key))) ks))

/-- The `summary` dict of `summarize_rankings`: one entry per Condition key,
keys in first-occurrence order (`defaultdict` insertion order). -/
noncomputable def summaryOf (queries : String → Option QueryInfo)
    (rankings : List Ranking) (ks : List Nat) : List (CondKey × List (String × ℝ)) :=
  (ListUtil.firstDedup (rankings.map ranking_key)).map
    (fun key => (key, condEntry queries rankings ks key))

instance : DecidableEq (CondKey × String) := fun a b => instDecidableEqProd a b

/-- The `per_query` dict: built per group, per contributing record, keyed by
(Condition key, query slug) — the code renders this pair as
`f"{key}|{ranking.slug}"`. -/
noncomputable def perQueryOf (queries : String → Option QueryInfo)
    (rankings : List Ranking) (ks : List Nat) :
    List ((CondKey × String) × List (String × ℝ)) :=
  (ListUtil.firstDedup (rankings.map ranking_key)).foldl
    (fun acc key =>
      (rankings.filter (fun r => decide (ranking_key r = key))).foldl
        (fun a r =>
          match queries r.slug with
          | none => a
          | some info =>
              dictUpdate a (key, r.slug)
                (query_result r.results ((info.relevant_ids r.docset).getD []) ks))
        acc)
    []

/-- `summarize_rankings` (lines 129–161): the summary and per-query maps. -/
noncomputable def summarize_rankings (queries : String → Option QueryInfo)
    (rankings : List Ranking) (ks : List Nat) :
    List (CondKey × List (String × ℝ)) × List ((CondKey × String) × List (String × ℝ)) :=
  (summaryOf queries rankings ks, perQueryOf queries rankings ks)

/-! ### `load_rankings` (C10) -/

/-- The `weights` object of an `rrf` payload (`payload["rrf"].get("weights", {})`
read with `.get("text", 1.0)` / `.get("vector", 1.0)`); a missing `weights`
object behaves as one with both entries missing. -/
structure RrfPayload where
  text : Option ℚ
  vector : Option ℚ

/-- The fields of one rankings-JSONL record that `load_rankings` reads.
`query_slug` and `mode` are mandatory (`payload["…"]`); `docset`, `model` and
`rrf` are optional (`payload.get`); `results` is the list of `document_id`s. -/
structure RankingPayload where
  query_slug : String
  docset : Option String
  mode : String
  model : Option String
  rrf : Option RrfPayload
  results : List Int

/-- One iteration of the `load_rankings` loop (lines 65–88): the `Ranking`
built from a record payload.  `docset` defaults to `"seed2"`; each missing
rrf weight defaults to `1.0`. -/
def parse_ranking (p : RankingPayload) : Ranking :=
  { slug := p.query_slug
    docset := p.docset.getD "seed2"
    mode := p.mode
    model := p.model
    rrf_weights := p.rrf.map (fun w => (w.text.getD 1, w.vector.getD 1))
    results := p.results }

/-- Claim C10: a record line omitting `docset` is not rejected — it parses to
the same `Ranking` as the record stating `"seed2"` explicitly, so it is
grouped and relevance-looked-up under docset `"seed2"`. -/
theorem parse_ranking_docset_default (p : RankingPayload) (h : p.docset = none) :
    parse_ranking p = parse_ranking { p with docset := some "seed2" } ∧
    (parse_ranking p).docset = "seed2" ∧
    ranking_key (parse_ranking p) =
      ranking_key (parse_ranking { p with docset := some "seed2" }) := by
  obtain ⟨slug, ds, mode, model, rrf, res⟩ := p
  cases h
  exact ⟨rfl, rfl, rfl⟩

/-- Witness for C10 at a concrete payload. -/
theorem parse_ranking_docset_default_witness :
    (RankingPayload.mk "q1" none "text" none none [1, 2]).docset = none ∧
    (parse_ranking (RankingPayload.mk "q1" none "text" none none [1, 2])).docset = "seed2" :=
  ⟨rfl, (parse_ranking_docset_default (RankingPayload.mk "q1" none "text" none none [1, 2])
    rfl).2.1⟩


/-! ### C2: Conditions with zero contributing queries -/

lemma find?_keys_map {β : Type} (keys : List CondKey) (g : CondKey → β) (key : CondKey)
    (h : key ∈ keys) :
    (keys.map (fun k => (k, g k))).find? (fun p => decide (p.1 = key)) = some (key, g key) := by
  induction keys with
  | nil => simp at h
  | cons a t ih =>
    rw [List.map_cons]
    by_cases ha : a = key
    · subst ha
      rw [List.find?_cons_of_pos _ (by simp)]
    · rw [List.find?_cons_of_neg _ (by simp [ha])]
      refine ih ?_
      rcases List.mem_cons.mp h with h' | h'
      · exact absurd h'.symm ha
      · exact h'

lemma find?_keys_map_none {β : Type} (keys : List CondKey) (g : CondKey → β) (key : CondKey)
    (h : key ∉ keys) :
    (keys.map (fun k => (k, g k))).find? (fun p => decide (p.1 = key)) = none := by
  apply List.find?_eq_none.mpr
  intro p hp
  rcases List.mem_map.mp hp with ⟨k, hk, rfl⟩
  simp only [decide_eq_true_eq]
  intro hc
  exact h (hc ▸ hk)

lemma contribResults_eq_nil (queries : String → Option QueryInfo)
    (runs : List Ranking) (ks : List Nat)
    (h : ∀ r ∈ runs, queries r.slug = none) : contribResults queries runs ks = [] := by
  rw [contribResults]
  induction runs with
  | nil => rfl
  | cons r t ih =>
    rw [List.filterMap_cons, h r (List.mem_cons_self _ _)]
    exact ih (fun e he => h e (List.mem_cons_of_mem _ he))

lemma condEntry_eq_nil (queries : String → Option QueryInfo)
    (rankings : List Ranking) (ks : List Nat) (key : CondKey)
    (hempty : ∀ r ∈ rankings, ranking_key r = key → queries r.slug = none) :
    condEntry queries rankings ks key = [] := by
  rw [condEntry, contribResults_eq_nil]
  · rfl
  · intro r hr
    have := List.mem_filter.mp hr
    exact hempty r this.1 (of_decide_eq_true this.2)

/-- Counterexample to claim C2 as stated: a group whose every record has an
unregistered query slug still gets a summary entry — `summary[key] = {}` is
assigned unconditionally, so the Condition key appears, mapped to an empty
metrics dict. -/
theorem summarize_zero_contrib_counterexample :
    (summarize_rankings (fun _ => none)
        [⟨"q1", "seed2", "text", none, none, [1, 2]⟩] [1]).1 =
      [((("seed2", "text", none, none) : CondKey), [])] := rfl

/-- Claim C2, amended: a Condition whose group contributes zero per-query
results still appears in the summary, but with an *empty* metrics dict — it
carries no metric names, hence no NaN or zero metric placeholders. -/
theorem summarize_zero_contrib_condition (queries : String → Option QueryInfo)
    (rankings : List Ranking) (ks : List Nat) (key : CondKey)
    (hkey : key ∈ rankings.map ranking_key)
    (hempty : ∀ r ∈ rankings, ranking_key r = key → queries r.slug = none) :
    (summarize_rankings queries rankings ks).1.find? (fun p => decide (p.1 = key)) =
      some (key, []) := by
  have hmem : key ∈ ListUtil.firstDedup (rankings.map ranking_key) :=
    (ListUtil.mem_firstDedup key _).mpr hkey
  show (summaryOf queries rankings ks).find? _ = _
  rw [summaryOf, find?_keys_map _ _ _ hmem,
    condEntry_eq_nil queries rankings ks key hempty]

/-- Witness for the amended C2 at concrete inputs. -/
theorem summarize_zero_contrib_condition_witness :
    ((("seed2", "text", none, none) : CondKey) ∈
      ([(⟨"q1", "seed2", "text", none, none, [1, 2]⟩ : Ranking)].map ranking_key)) ∧
    (summarize_rankings (fun _ => none)
        [⟨"q1", "seed2", "text", none, none, [1, 2]⟩] [1]).1.find?
      (fun p => decide (p.1 = (("seed2", "text", none, none) : CondKey))) =
      some (("seed2", "text", none, none), []) :=
  ⟨by simp [ranking_key],
    summarize_zero_contrib_condition (fun _ => none)
      [⟨"q1", "seed2", "text", none, none, [1, 2]⟩] [1] ("seed2", "text", none, none)
      (by simp [ranking_key]) (fun _ _ _ => rfl)⟩


/-! ### C9: records with unknown query slugs are silently skipped -/

section DictFold

variable {α β : Type} [DecidableEq α]

lemma find?_map_update (d : List (α × β)) (k : α) (x : β) :
    (d.map (fun p => if p.1 = k then (k, x) else p)).find? (fun p => decide (p.1 = k)) =
      if ∃ p ∈ d, p.1 = k then some (k, x) else none := by
  induction d with
  | nil => simp
  | cons q t ih =>
    rw [List.map_cons]
    by_cases hq : q.1 = k
    · rw [if_pos hq, List.find?_cons_of_pos _ (by simp), if_pos ⟨q, List.mem_cons_self _ _, hq⟩]
    · rw [if_neg hq, List.find?_cons_of_neg _ (by simp [hq]), ih]
      by_cases hex : ∃ p ∈ t, p.1 = k
      · rw [if_pos hex, if_pos]
        obtain ⟨p, hp, hpk⟩ := hex
        exact ⟨p, List.mem_cons_of_mem _ hp, hpk⟩
      · rw [if_neg hex, if_neg]
        rintro ⟨p, hp, hpk⟩
        rcases List.mem_cons.mp hp with rfl | hp'
        · exact hq hpk
        · exact hex ⟨p, hp', hpk⟩

lemma find?_append_single (d : List (α × β)) (k : α) (x : β)
    (hnone : ∀ p ∈ d, p.1 ≠ k) :
    (d ++ [(k, x)]).find? (fun p => decide (p.1 = k)) = some (k, x) := by
  induction d with
  | nil => rw [List.nil_append, List.find?_cons_of_pos _ (by simp)]
  | cons q t ih =>
    rw [List.cons_append,
      List.find?_cons_of_neg _ (by simp [hnone q (List.mem_cons_self _ _)])]
    exact ih (fun p hp => hnone p (List.mem_cons_of_mem _ hp))

lemma find?_dictUpdate_self (d : List (α × β)) (k : α) (x : β) :
    (dictUpdate d k x).find? (fun p => decide (p.1 = k)) = some (k, x) := by
  rw [dictUpdate]
  by_cases hany : d.any (fun p => decide (p.1 = k)) = true
  · rw [if_pos hany, find?_map_update, if_pos]
    obtain ⟨p, hp, hpk⟩ := List.any_eq_true.mp hany
    exact ⟨p, hp, of_decide_eq_true hpk⟩
  · rw [if_neg hany]
    apply find?_append_single
    intro p hp hpk
    exact hany (List.any_eq_true.mpr ⟨p, hp, decide_eq_true hpk⟩)

lemma find?_map_update_other (d : List (α × β)) (k k' : α) (x : β) (h : k' ≠ k) :
    (d.map (fun p => if p.1 = k then (k, x) else p)).find? (fun p => decide (p.1 = k')) =
      d.find? (fun p => decide (p.1 = k')) := by
  induction d with
  | nil => rfl
  | cons q t ih =>
    rw [List.map_cons]
    by_cases hq : q.1 = k
    · rw [if_pos hq, List.find?_cons_of_neg _ (by simp; exact Ne.symm h),
        List.find?_cons_of_neg _ (by simp [hq]; exact Ne.symm h)]
      exact ih
    · rw [if_neg hq]
      by_cases hq' : q.1 = k'
      · rw [List.find?_cons_of_pos _ (by simp [hq']), List.find?_cons_of_pos _ (by simp [hq'])]
      · rw [List.find?_cons_of_neg _ (by simp [hq']), List.find?_cons_of_neg _ (by simp [hq'])]
        exact ih

lemma find?_append_single_other (d : List (α × β)) (k k' : α) (x : β) (h : k' ≠ k) :
    (d ++ [(k, x)]).find? (fun p => decide (p.1 = k')) =
      d.find? (fun p => decide (p.1 = k')) := by
  induction d with
  | nil =>
    rw [List.nil_append, List.find?_cons_of_neg _ (by simp [Ne.symm h])]
  | cons q t ih =>
    rw [List.cons_append]
    by_cases hq' : q.1 = k'
    · rw [List.find?_cons_of_pos _ (by simp [hq']), List.find?_cons_of_pos _ (by simp [hq'])]
    · rw [List.find?_cons_of_neg _ (by simp [hq']), List.find?_cons_of_neg _ (by simp [hq'])]
      exact ih

lemma find?_dictUpdate_other (d : List (α × β)) (k k' : α) (x : β) (h : k' ≠ k) :
    (dictUpdate d k x).find? (fun p => decide (p.1 = k')) =
      d.find? (fun p => decide (p.1 = k')) := by
  rw [dictUpdate]
  by_cases hany : d.any (fun p => decide (p.1 = k)) = true
  · rw [if_pos hany, find?_map_update_other d k k' x h]
  · rw [if_neg hany, find?_append_single_other d k k' x h]

/-- Folding dict updates: a key's final binding is the last update step that
targeted it, falling back to the initial dict if none did. -/
lemma find?_foldl_dictUpdate (steps : List (α × β)) (k : α) :
    ∀ acc : List (α × β),
      ((steps.foldl (fun a s => dictUpdate a s.1 s.2) acc).find? (fun p => decide (p.1 = k))) =
        (match (steps.filter (fun s => decide (s.1 = k))).getLast? with
         | some s => some (k, s.2)
         | none => acc.find? (fun p => decide (p.1 = k))) := by
  induction steps with
  | nil => intro acc; rfl
  | cons s t ih =>
    intro acc
    rw [List.foldl_cons, ih (dictUpdate acc s.1 s.2), List.filter_cons]
    by_cases hs : s.1 = k
    · rw [if_pos (by simp [hs])]
      cases hfc : t.filter (fun s => decide (s.1 = k)) with
      | nil =>
        subst hs
        simp only [List.getLast?_nil, List.getLast?_singleton]
        exact find?_dictUpdate_self acc s.1 s.2
      | cons u rest =>
        rw [List.getLast?_cons_cons, List.getLast?_eq_getLast (u :: rest) (by simp)]
    · rw [if_neg (by simp [hs])]
      cases hlast : (t.filter (fun s => decide (s.1 = k))).getLast? with
      | some u => rfl
      | none => exact find?_dictUpdate_other acc s.1 k s.2 (fun hc => hs hc.symm)

end DictFold


/-- The per-query update steps produced by one group's runs: one step per
contributing record, keyed by (Condition key, slug). -/
noncomputable def pqSteps (queries : String → Option QueryInfo) (ks : List Nat)
    (key : CondKey) (runs : List Ranking) :
    List ((CondKey × String) × List (String × ℝ)) :=
  runs.filterMap (fun r =>
    (queries r.slug).map (fun info =>
      ((key, r.slug), query_result r.results ((info.relevant_ids r.docset).getD []) ks)))

lemma groupFold_eq_steps_fold (queries : String → Option QueryInfo) (ks : List Nat)
    (key : CondKey) (runs : List Ranking) :
    ∀ acc : List ((CondKey × String) × List (String × ℝ)),
      runs.foldl
        (fun a r =>
          match queries r.slug with
          | none => a
          | some info =>
              dictUpdate a (key, r.slug)
                (query_result r.results ((info.relevant_ids r.docset).getD []) ks))
        acc =
      (pqSteps queries ks key runs).foldl (fun a s => dictUpdate a s.1 s.2) acc := by
  induction runs with
  | nil => intro acc; rfl
  | cons r t ih =>
    intro acc
    rw [List.foldl_cons, pqSteps, List.filterMap_cons]
    cases hq : queries r.slug with
    | none =>
      simp only [hq, Option.map_none']
      exact ih acc
    | some info =>
      simp only [hq, Option.map_some']
      rw [List.foldl_cons]
      exact ih _

lemma foldl_keys_eq_flatMap (keys : List CondKey)
    (f : CondKey → List ((CondKey × String) × List (String × ℝ))) :
    ∀ acc,
      keys.foldl (fun a key => (f key).foldl (fun b s => dictUpdate b s.1 s.2) a) acc =
        (keys.flatMap f).foldl (fun b s => dictUpdate b s.1 s.2) acc := by
  induction keys with
  | nil => intro acc; rfl
  | cons k t ih =>
    intro acc
    rw [List.foldl_cons, List.flatMap_cons, List.foldl_append, ih]

lemma perQueryOf_eq_steps (queries : String → Option QueryInfo)
    (rankings : List Ranking) (ks : List Nat) :
    perQueryOf queries rankings ks =
      ((ListUtil.firstDedup (rankings.map ranking_key)).flatMap
        (fun key => pqSteps queries ks key
          (rankings.filter (fun r => decide (ranking_key r = key))))).foldl
        (fun a s => dictUpdate a s.1 s.2) [] := by
  rw [perQueryOf, ← foldl_keys_eq_flatMap]
  induction ListUtil.firstDedup (rankings.map ranking_key) with
  | nil => rfl
  | cons k t ih =>
    rw [List.foldl_cons, List.foldl_cons, groupFold_eq_steps_fold]
    exact congrFun (congrFun (congrArg _ (funext (fun a => funext (fun key =>
      groupFold_eq_steps_fold queries ks key _ a)))) _) _

lemma pqSteps_fst_eq (queries : String → Option QueryInfo) (ks : List Nat)
    (key : CondKey) (runs : List Ranking) :
    ∀ s ∈ pqSteps queries ks key runs, s.1.1 = key := by
  intro s hs
  rcases List.mem_filterMap.mp hs with ⟨r, _, hmap⟩
  cases hq : queries r.slug with
  | none => rw [hq] at hmap; simp at hmap
  | some info =>
    rw [hq, Option.map_some'] at hmap
    obtain rfl := Option.some.inj hmap
    rfl

lemma filter_flatMap_steps (queries : String → Option QueryInfo) (ks : List Nat)
    (keys : List CondKey) (R : List Ranking) (pk : CondKey × String) (hnd : keys.Nodup) :
    ((keys.flatMap (fun key => pqSteps queries ks key
        (R.filter (fun r => decide (ranking_key r = key))))).filter
          (fun s => decide (s.1 = pk))) =
      if pk.1 ∈ keys then
        (pqSteps queries ks pk.1
          (R.filter (fun r => decide (ranking_key r = pk.1)))).filter
            (fun s => decide (s.1 = pk))
      else [] := by
  induction keys with
  | nil => simp
  | cons k t ih =>
    rw [List.flatMap_cons, List.filter_append, List.nodup_cons] at *
    obtain ⟨hk_notin, hnd'⟩ := hnd
    by_cases hk : pk.1 = k
    · have htail : ((t.flatMap (fun key => pqSteps queries ks key
          (R.filter (fun r => decide (ranking_key r = key))))).filter
            (fun s => decide (s.1 = pk))) = [] := by
        apply List.filter_eq_nil_iff.mpr
        intro s hs
        rcases List.mem_flatMap.mp hs with ⟨key2, hkey2, hs2⟩
        have hfst := pqSteps_fst_eq queries ks key2 _ s hs2
        simp only [decide_eq_true_eq]
        intro hc
        apply hk_notin
        have hkey2k : key2 = k := by rw [← hfst, hc]; exact hk
        rw [← hkey2k]
        exact hkey2
      rw [htail, List.append_nil, if_pos (by rw [hk]; exact List.mem_cons_self _ _), hk]
    · have hhead : ((pqSteps queries ks k
          (R.filter (fun r => decide (ranking_key r = k)))).filter
            (fun s => decide (s.1 = pk))) = [] := by
        apply List.filter_eq_nil_iff.mpr
        intro s hs
        have hfst := pqSteps_fst_eq queries ks k _ s hs
        simp only [decide_eq_true_eq]
        intro hc
        exact hk (by rw [← hc, hfst])
      rw [hhead, List.nil_append, ih hnd']
      by_cases hmem : pk.1 ∈ t
      · rw [if_pos hmem, if_pos (List.mem_cons_of_mem _ hmem)]
      · rw [if_neg hmem, if_neg (fun hc => by
          rcases List.mem_cons.mp hc with hc' | hc'
          · exact hk hc'
          · exact hmem hc')]

lemma filter_key_eq_nil (rankings : List Ranking) (key : CondKey)
    (h : key ∉ rankings.map ranking_key) :
    rankings.filter (fun r => decide (ranking_key r = key)) = [] := by
  apply List.filter_eq_nil_iff.mpr
  intro r hr
  simp only [decide_eq_true_eq]
  intro hc
  exact h (hc ▸ List.mem_map_of_mem ranking_key hr)

/-- The per-query dict's binding at a key is determined by that key's own
Condition group alone. -/
lemma perQuery_find?_char (queries : String → Option QueryInfo)
    (rankings : List Ranking) (ks : List Nat) (pk : CondKey × String) :
    (perQueryOf queries rankings ks).find? (fun p => decide (p.1 = pk)) =
      (match ((pqSteps queries ks pk.1
          (rankings.filter (fun r => decide (ranking_key r = pk.1)))).filter
            (fun s => decide (s.1 = pk))).getLast? with
       | some s => some (pk, s.2)
       | none => none) := by
  rw [perQueryOf_eq_steps, find?_foldl_dictUpdate _ pk [],
    filter_flatMap_steps queries ks _ rankings pk (ListUtil.nodup_firstDedup _)]
  by_cases hmem : pk.1 ∈ ListUtil.firstDedup (rankings.map ranking_key)
  · rw [if_pos hmem]
    cases ((pqSteps queries ks pk.1
        (rankings.filter (fun r => decide (ranking_key r = pk.1)))).filter
          (fun s => decide (s.1 = pk))).getLast? with
    | some u => rfl
    | none => rfl
  · rw [if_neg hmem,
      filter_key_eq_nil rankings pk.1 (fun hc => hmem ((ListUtil.mem_firstDedup _ _).mpr hc))]
    rfl

lemma pqSteps_cons_skip (queries : String → Option QueryInfo) (ks : List Nat)
    (key : CondKey) (r : Ranking) (t : List Ranking) (h : queries r.slug = none) :
    pqSteps queries ks key (r :: t) = pqSteps queries ks key t := by
  rw [pqSteps, List.filterMap_cons, h, Option.map_none']
  rfl

lemma pqSteps_skip_middle (queries : String → Option QueryInfo) (ks : List Nat)
    (key : CondKey) (l₁ l₂ : List Ranking) (r₀ : Ranking) (h : queries r₀.slug = none) :
    pqSteps queries ks key
        ((l₁ ++ r₀ :: l₂).filter (fun r => decide (ranking_key r = key))) =
      pqSteps queries ks key
        ((l₁ ++ l₂).filter (fun r => decide (ranking_key r = key))) := by
  rw [List.filter_append, List.filter_append, List.filter_cons]
  by_cases hk : ranking_key r₀ = key
  · rw [if_pos (by simp [hk]), pqSteps, List.filterMap_append, pqSteps, List.filterMap_append,
      show List.filterMap _ (r₀ :: List.filter _ l₂) = _ from rfl, List.filterMap_cons, h,
      Option.map_none']
  · rw [if_neg (by simp [hk])]

lemma contribResults_skip_middle (queries : String → Option QueryInfo) (ks : List Nat)
    (key : CondKey) (l₁ l₂ : List Ranking) (r₀ : Ranking) (h : queries r₀.slug = none) :
    contribResults queries
        ((l₁ ++ r₀ :: l₂).filter (fun r => decide (ranking_key r = key))) ks =
      contribResults queries
        ((l₁ ++ l₂).filter (fun r => decide (ranking_key r = key))) ks := by
  rw [List.filter_append, List.filter_append, List.filter_cons]
  by_cases hk : ranking_key r₀ = key
  · rw [if_pos (by simp [hk]), contribResults, List.filterMap_append, contribResults,
      List.filterMap_append, show List.filterMap _ (r₀ :: List.filter _ l₂) = _ from rfl,
      List.filterMap_cons, h, Option.map_none']
  · rw [if_neg (by simp [hk])]

lemma condEntry_skip_middle (queries : String → Option QueryInfo) (ks : List Nat)
    (key : CondKey) (l₁ l₂ : List Ranking) (r₀ : Ranking) (h : queries r₀.slug = none) :
    condEntry queries (l₁ ++ r₀ :: l₂) ks key = condEntry queries (l₁ ++ l₂) ks key := by
  rw [condEntry, condEntry, contribResults_skip_middle queries ks key l₁ l₂ r₀ h]

lemma summary_find?_eq (queries : String → Option QueryInfo)
    (rankings : List Ranking) (ks : List Nat) (key : CondKey) :
    (summaryOf queries rankings ks).find? (fun p => decide (p.1 = key)) =
      if key ∈ rankings.map ranking_key then some (key, condEntry queries rankings ks key)
      else none := by
  by_cases hmem : key ∈ rankings.map ranking_key
  · rw [if_pos hmem, summaryOf,
      find?_keys_map _ _ _ ((ListUtil.mem_firstDedup _ _).mpr hmem)]
  · rw [if_neg hmem, summaryOf,
      find?_keys_map_none _ _ _ (fun hc => hmem ((ListUtil.mem_firstDedup _ _).mp hc))]


/-- Claim C9: a record whose query slug has no registered `QueryInfo` is
silently skipped: the per-query map is unchanged at every key, and every
Condition's summary entry is unchanged — except that the skipped record's own
Condition key may newly appear, and then only with an empty metrics dict. -/
theorem summarize_skips_unknown_slug (queries : String → Option QueryInfo)
    (l₁ l₂ : List Ranking) (r₀ : Ranking) (ks : List Nat)
    (h₀ : queries r₀.slug = none) :
    (∀ pk : CondKey × String,
        (summarize_rankings queries (l₁ ++ r₀ :: l₂) ks).2.find?
            (fun p => decide (p.1 = pk)) =
          (summarize_rankings queries (l₁ ++ l₂) ks).2.find?
            (fun p => decide (p.1 = pk))) ∧
    (∀ key : CondKey,
        (summarize_rankings queries (l₁ ++ r₀ :: l₂) ks).1.find?
              (fun p => decide (p.1 = key)) =
            (summarize_rankings queries (l₁ ++ l₂) ks).1.find?
              (fun p => decide (p.1 = key)) ∨
          (key = ranking_key r₀ ∧
            (summarize_rankings queries (l₁ ++ r₀ :: l₂) ks).1.find?
                (fun p => decide (p.1 = key)) = some (key, []) ∧
            (summarize_rankings queries (l₁ ++ l₂) ks).1.find?
                (fun p => decide (p.1 = key)) = none)) := by
  constructor
  · intro pk
    show (perQueryOf queries (l₁ ++ r₀ :: l₂) ks).find? _ =
      (perQueryOf queries (l₁ ++ l₂) ks).find? _
    rw [perQuery_find?_char, perQuery_find?_char,
      pqSteps_skip_middle queries ks pk.1 l₁ l₂ r₀ h₀]
  · intro key
    have hfull := summary_find?_eq queries (l₁ ++ r₀ :: l₂) ks key
    have hrest := summary_find?_eq queries (l₁ ++ l₂) ks key
    by_cases hmem : key ∈ (l₁ ++ l₂).map ranking_key
    · left
      have hmem2 : key ∈ (l₁ ++ r₀ :: l₂).map ranking_key := by
        rw [List.map_append, List.mem_append] at hmem ⊢
        rcases hmem with h | h
        · exact Or.inl h
        · exact Or.inr (by rw [List.map_cons]; exact List.mem_cons_of_mem _ h)
      show (summaryOf queries (l₁ ++ r₀ :: l₂) ks).find? _ =
        (summaryOf queries (l₁ ++ l₂) ks).find? _
      rw [hfull, hrest, if_pos hmem2, if_pos hmem,
        condEntry_skip_middle queries ks key l₁ l₂ r₀ h₀]
    · by_cases hr₀ : key = ranking_key r₀
      · right
        refine ⟨hr₀, ?_, ?_⟩
        · show (summaryOf queries (l₁ ++ r₀ :: l₂) ks).find? _ = _
          have hmem2 : key ∈ (l₁ ++ r₀ :: l₂).map ranking_key := by
            rw [List.map_append, List.mem_append, List.map_cons]
            exact Or.inr (hr₀ ▸ List.mem_cons_self _ _)
          have hentry : condEntry queries (l₁ ++ r₀ :: l₂) ks key = [] := by
            rw [condEntry_skip_middle queries ks key l₁ l₂ r₀ h₀, condEntry,
              filter_key_eq_nil (l₁ ++ l₂) key hmem]
            rfl
          rw [hfull, if_pos hmem2, hentry]
        · show (summaryOf queries (l₁ ++ l₂) ks).find? _ = _
          rw [hrest, if_neg hmem]
      · left
        have hmem2 : key ∉ (l₁ ++ r₀ :: l₂).map ranking_key := by
          intro hc
          rw [List.map_append, List.mem_append, List.map_cons, List.mem_cons] at hc
          rcases hc with hc | hc | hc
          · exact hmem (by rw [List.map_append, List.mem_append]; exact Or.inl hc)
          · exact hr₀ hc
          · exact hmem (by rw [List.map_append, List.mem_append]; exact Or.inr hc)
        show (summaryOf queries (l₁ ++ r₀ :: l₂) ks).find? _ =
          (summaryOf queries (l₁ ++ l₂) ks).find? _
        rw [hfull, hrest, if_neg hmem2, if_neg hmem]

/-- Witness for C9 at concrete inputs: one record with an unregistered slug,
checked on the per-query map at its own key. -/
theorem summarize_skips_unknown_slug_witness :
    ((fun _ : String => (none : Option QueryInfo)) "qx" = none) ∧
    ((summarize_rankings (fun _ => none)
          ([] ++ (⟨"qx", "seed2", "text", none, none, [1]⟩ : Ranking) :: []) [1]).2.find?
        (fun p => decide (p.1 = ((("seed2", "text", none, none) : CondKey), "qx"))) =
      (summarize_rankings (fun _ => none) ([] ++ ([] : List Ranking)) [1]).2.find?
        (fun p => decide (p.1 = ((("seed2", "text", none, none) : CondKey), "qx")))) :=
  ⟨rfl,
    (summarize_skips_unknown_slug (fun _ => none) [] []
        ⟨"qx", "seed2", "text", none, none, [1]⟩ [1] rfl).1
      (("seed2", "text", none, none), "qx")⟩

end CalcMetrics
